import Mathlib

namespace Swag

/-!
Shallow embedding of the cooperative executor in `src/main.rs`:
the type-erased task slots (`Task`), the round-robin executor
(`Executor`), the suspension primitives (`Yield`, `Delay`) and the
VGA text output helpers (`write_at`, `write_char_at`).

Machine integers: `remaining : u32` only ever decreases by
`min remaining 1000`, so it never wraps and is modelled as `Nat`.
Task storage bytes (`[u8; 512]`) are modelled as a list of `Nat` cells;
no claim depends on the 0..255 range of a byte.
-/

/-- Outcome of polling a future: `core::task::Poll<()>`. -/
inductive Poll where
  | ready
  | pending
deriving DecidableEq, Repr

/-- The 512-byte task storage buffer, as a list of byte cells. -/
abbrev Storage := List Nat

/-- A concrete future value as the executor sees it after type erasure:
its `size_of`, its byte representation (`encode`, the first `size`
entries are the bytes of the value), and the type's poll and drop
functions acting on that representation. -/
structure Computation where
  size : Nat
  encode : List Nat
  pollS : Storage → Storage × Poll
  dropS : Storage → Storage

/-- `struct Task`: optional poll/drop function pointers plus the
fixed 512-byte storage. -/
structure Task where
  poll_fn : Option (Storage → Storage × Poll)
  drop_fn : Option (Storage → Storage)
  storage : Storage

/-- `Task::new()`. -/
def Task.new : Task :=
  { poll_fn := none, drop_fn := none, storage := List.replicate 512 0 }

/-- `Task::init_with`: if the future fits in the buffer, copy its bytes
into the prefix of the storage and bind poll/drop functions that
reinterpret that prefix as the future; otherwise do nothing. -/
def Task.init_with (t : Task) (c : Computation) : Task :=
  if c.size ≤ t.storage.length then
    { poll_fn := some fun s =>
        let r := c.pollS (s.take c.size)
        (r.1 ++ s.drop c.size, r.2),
      drop_fn := some fun s => c.dropS (s.take c.size) ++ s.drop c.size,
      storage := c.encode.take c.size ++ t.storage.drop c.size }
  else t

/-- `Task::poll`: run the bound poll function on the storage, or return
`Ready` immediately when no poll function is bound. -/
def Task.poll (t : Task) : Task × Poll :=
  match t.poll_fn with
  | some f =>
    let r := f t.storage
    ({ t with storage := r.1 }, r.2)
  | none => (t, Poll.ready)

/-- `Task::is_active`. -/
def Task.is_active (t : Task) : Bool :=
  t.poll_fn.isSome

/-- `Task::deactivate`: `self.drop_fn.take()` runs the bound drop
function if any, then the poll function is cleared. -/
def Task.deactivate (t : Task) : Task :=
  match t.drop_fn with
  | some f => { poll_fn := none, drop_fn := none, storage := f t.storage }
  | none => { t with poll_fn := none }

/-- `struct Executor`: the slot table and the round-robin cursor. -/
structure Executor where
  tasks : List Task
  current_task : Nat

/-- `Executor::new()`: eight fresh tasks, cursor at slot 0. -/
def Executor.new : Executor :=
  { tasks := [Task.new, Task.new, Task.new, Task.new,
              Task.new, Task.new, Task.new, Task.new],
    current_task := 0 }

/-- The slot-scanning loop of `Executor::spawn`: initialize the first
inactive task and report `true`, or report `false` when all are active. -/
def spawnList (c : Computation) : List Task → List Task × Bool
  | [] => ([], false)
  | t :: ts =>
    if t.is_active then
      let r := spawnList c ts
      (t :: r.1, r.2)
    else (t.init_with c :: ts, true)

/-- `Executor::spawn`. -/
def Executor.spawn (ex : Executor) (c : Computation) : Executor × Bool :=
  let r := spawnList c ex.tasks
  ({ ex with tasks := r.1 }, r.2)

/-- The body of `Executor::run_step` on the slot under the cursor:
poll it if it is active and deactivate it when the poll reports
`Ready`. -/
def stepTask (t : Task) : Task :=
  if t.is_active then
    match (t.poll).2 with
    | Poll.ready => ((t.poll).1).deactivate
    | Poll.pending => (t.poll).1
  else t

/-- `Executor::run_step`: run `stepTask` on the slot under the cursor,
then advance the cursor by one modulo the table size.  The Rust loop
body runs exactly once (unconditional `break`); with an empty table the
body never runs, and an out-of-range cursor would panic, modelled as
`none`. -/
def Executor.run_step (ex : Executor) : Option Executor :=
  if ex.tasks.isEmpty then some ex
  else
    match ex.tasks.get? ex.current_task with
    | none => none
    | some t =>
      some { tasks := ex.tasks.set ex.current_task (stepTask t),
             current_task := (ex.current_task + 1) % ex.tasks.length }

/-- `k` consecutive `run_step` calls. -/
def Executor.run_stepN (ex : Executor) : Nat → Option Executor
  | 0 => some ex
  | k + 1 =>
    match ex.run_step with
    | some ex' => ex'.run_stepN k
    | none => none

/-- `struct Yield`. -/
structure Yield where
  yielded : Bool
deriving DecidableEq, Repr

/-- `Yield::new()`. -/
def Yield.new : Yield := { yielded := false }

/-- `impl Future for Yield`: `Pending` once, recording the fact, then
`Ready`. -/
def Yield.poll (y : Yield) : Yield × Poll :=
  if y.yielded then (y, Poll.ready)
  else ({ yielded := true }, Poll.pending)

/-- `struct Delay` (`remaining: u32`). -/
structure Delay where
  remaining : Nat
deriving DecidableEq, Repr

/-- `Delay::new(cycles)`. -/
def Delay.new (cycles : Nat) : Delay := { remaining := cycles }

/-- `impl Future for Delay`: `Ready` when nothing remains, otherwise
burn one chunk of at most 1000 units and report `Pending`.  The busy
`nop` loop has no modelled effect. -/
def Delay.poll (d : Delay) : Delay × Poll :=
  if d.remaining = 0 then (d, Poll.ready)
  else ({ remaining := d.remaining - min d.remaining 1000 }, Poll.pending)

/-- State of `Delay::new(n)` after `k` polls. -/
def delayState (n : Nat) : Nat → Delay
  | 0 => Delay.new n
  | k + 1 => ((delayState n k).poll).1

/-- Result of the `k`-th (1-indexed) poll of `Delay::new(n)`. -/
def delayResult (n k : Nat) : Poll :=
  ((delayState n (k - 1)).poll).2

/-! VGA text buffer model: the 80×25 grid is a 4000-byte buffer, cell
`(row, col)` owning the character byte at offset `(row*80+col)*2` and
the colour byte right after it. -/

/-- A view of the VGA byte buffer: the byte stored at each offset. -/
abbrev VgaBuffer := Nat → Nat

/-- Store byte `v` at offset `off`. -/
def updByte (b : VgaBuffer) (off v : Nat) : VgaBuffer :=
  fun o => if o = off then v else b o

/-- The character loop of `write_at`: the `i`-th byte goes to offset
`offset + i*2` (colour right after), skipped when that offset reaches
the end of the 80*25 buffer. -/
def write_at_aux (color : Nat) : List Nat → Nat → Nat → VgaBuffer → VgaBuffer
  | [], _, _, buf => buf
  | byte :: rest, i, offset, buf =>
    let buf' :=
      if offset + i * 2 < 80 * 25 * 2 then
        updByte (updByte buf (offset + i * 2) byte) (offset + i * 2 + 1) color
      else buf
    write_at_aux color rest (i + 1) offset buf'

/-- `write_at`: writes `text` starting at the linear offset of
`(row, col)`, bounding only the linear offset. -/
def write_at (text : List Nat) (row col : Nat) (color : Nat)
    (buf : VgaBuffer) : VgaBuffer :=
  write_at_aux color text 0 ((row * 80 + col) * 2) buf

/-- `write_char_at`: fully bounds-checked single-cell write. -/
def write_char_at (ch : Nat) (row col : Nat) (color : Nat)
    (buf : VgaBuffer) : VgaBuffer :=
  if row < 25 ∧ col < 80 then
    updByte (updByte buf ((row * 80 + col) * 2) ch) ((row * 80 + col) * 2 + 1) color
  else buf

/-! Concrete values used by witnesses. -/

/-- A 1-byte computation that finishes on its first poll. -/
def smallComp : Computation :=
  { size := 1, encode := [7],
    pollS := fun s => (s, Poll.ready),
    dropS := fun s => s }

/-- A computation whose `size_of` exceeds the 512-byte slot capacity. -/
def bigComp : Computation :=
  { size := 513, encode := List.replicate 513 1,
    pollS := fun s => (s, Poll.pending),
    dropS := fun s => s }

/-- An occupied slot holding a computation that stays `Pending`. -/
def activeTask : Task :=
  { poll_fn := some fun s => (s, Poll.pending),
    drop_fn := some fun s => s,
    storage := List.replicate 512 0 }

/-- An occupied slot holding a computation that reports `Ready` on its
next poll. -/
def doneTask : Task :=
  { poll_fn := some fun s => (s, Poll.ready),
    drop_fn := some fun s => s,
    storage := List.replicate 512 0 }

/-- An executor whose eight slots are all occupied. -/
def fullEx : Executor :=
  { tasks := List.replicate 8 activeTask, current_task := 0 }

/-- An executor whose first slot is occupied and the rest are free. -/
def ex7 : Executor :=
  { tasks := [activeTask, Task.new, Task.new, Task.new,
              Task.new, Task.new, Task.new, Task.new],
    current_task := 0 }

/-- An executor whose cursor rests on a slot about to report `Ready`. -/
def ex5 : Executor :=
  { tasks := [doneTask, Task.new, Task.new, Task.new,
              Task.new, Task.new, Task.new, Task.new],
    current_task := 0 }

/-! Helper lemmas. -/

/-- The remaining counter of `Delay::new(n)` after `k` polls is
`n - 1000 * k` (truncated subtraction). -/
theorem delayState_remaining (n k : Nat) :
    (delayState n k).remaining = n - 1000 * k := by
  induction k with
  | zero => rfl
  | succ k ih =>
    show ((delayState n k).poll).1.remaining = n - 1000 * (k + 1)
    unfold Delay.poll
    split
    · rename_i h
      rw [ih] at h
      show (delayState n k).remaining = n - 1000 * (k + 1)
      rw [ih]
      omega
    · rename_i h
      rw [ih] at h
      show (delayState n k).remaining - min (delayState n k).remaining 1000
          = n - 1000 * (k + 1)
      rw [ih]
      omega

/-- A deactivated slot never reads as active. -/
theorem deactivate_not_active (t : Task) : t.deactivate.is_active = false := by
  cases t with
  | mk p d s => cases d <;> simp [Task.deactivate, Task.is_active]

/-! Claim theorems. -/

/-- Claim C6: a fresh `Yield` reports Pending on the first poll,
recording that it yielded, and Ready on the second poll. -/
theorem yield_sequence_pending_done :
    (Yield.new.poll).2 = Poll.pending ∧
    ((Yield.new.poll).1.poll).2 = Poll.ready ∧
    (Yield.new.poll).1.yielded = true := by
  decide

/-- Claim C10: polling a slot with no bound poll function returns
Ready immediately and leaves the slot (including its buffer)
untouched. -/
theorem poll_empty_slot_ready (t : Task) (h : t.poll_fn = none) :
    t.poll = (t, Poll.ready) := by
  unfold Task.poll
  rw [h]

theorem poll_empty_slot_ready_witness : Task.new.poll = (Task.new, Poll.ready) :=
  poll_empty_slot_ready Task.new rfl

/-- Claim C8: `deactivate` on an empty slot with cleared bindings is a
no-op, and deactivating twice gives the same state as deactivating
once. -/
theorem deactivate_idempotent_noop :
    (∀ t : Task, t.poll_fn = none → t.drop_fn = none → t.deactivate = t) ∧
    (∀ t : Task, t.deactivate.deactivate = t.deactivate) := by
  constructor
  · intro t h1 h2
    cases t with
    | mk p d s => simp_all [Task.deactivate]
  · intro t
    cases t with
    | mk p d s => cases d <;> simp [Task.deactivate]

theorem deactivate_idempotent_noop_witness :
    Task.new.deactivate = Task.new ∧
    activeTask.deactivate.deactivate = activeTask.deactivate :=
  ⟨deactivate_idempotent_noop.1 Task.new rfl rfl,
   deactivate_idempotent_noop.2 activeTask⟩

/-- Claim C1 counterexample: the 3rd resume of `Delay(2500)` still
reports Pending (the chunk that consumes the last 500 units returns
Pending; Ready only comes on the next call), refuting Done on the
`ceil(2500/1000) = 3`-rd call. -/
theorem delay2500_third_poll_pending :
    delayResult 2500 3 = Poll.pending := by
  decide

/-- Claim C1 (amended): for `totalUnits > 0`, `Delay(totalUnits)` with
chunk size 1000 reports Pending on every call up to and including the
`ceil(totalUnits/1000)`-th one and Ready from the
`ceil(totalUnits/1000) + 1`-st call on. -/
theorem delay_done_on_ceil_succ (n k : Nat) (_hn : 0 < n) (hk : 1 ≤ k) :
    delayResult n k
      = if (n + 999) / 1000 < k then Poll.ready else Poll.pending := by
  have hrem := delayState_remaining n (k - 1)
  unfold delayResult
  unfold Delay.poll
  split
  · rename_i h
    rw [hrem] at h
    have hc : (n + 999) / 1000 < k := by omega
    simp [hc]
  · rename_i h
    rw [hrem] at h
    have hc : ¬((n + 999) / 1000 < k) := by omega
    simp [hc]

theorem delay_done_on_ceil_succ_witness :
    delayResult 2500 4
      = if (2500 + 999) / 1000 < 4 then Poll.ready else Poll.pending :=
  delay_done_on_ceil_succ 2500 4 (by decide) (by decide)

set_option maxRecDepth 4096 in
/-- Claim C2 (code evidence): spawning a computation whose size exceeds
the 512-byte capacity onto a fresh executor leaves every slot exactly
as it was — but still returns `true`, so the caller is told the spawn
succeeded rather than that it failed. -/
theorem spawn_oversized_reports_success_slot_unchanged :
    Executor.new.spawn bigComp = (Executor.new, true) ∧
    Task.new.init_with bigComp = Task.new :=
  ⟨rfl, rfl⟩

/-- Scanning a table in which every slot is active changes nothing and
reports failure. -/
theorem spawnList_all_active (c : Computation) :
    ∀ ts : List Task, (∀ t ∈ ts, t.is_active = true) →
      spawnList c ts = (ts, false) := by
  intro ts
  induction ts with
  | nil => intro _; rfl
  | cons t ts ih =>
    intro h
    have ht : t.is_active = true := h t (by simp)
    have hts : ∀ x ∈ ts, x.is_active = true := fun x hx => h x (by simp [hx])
    simp [spawnList, ht, ih hts]

/-- Scanning a table whose first inactive slot sits at index `j`
initializes exactly that slot and reports success. -/
theorem spawnList_first_inactive (c : Computation) :
    ∀ (ts : List Task) (j : Nat), j < ts.length →
      (∀ k, k < j → (ts.getD k Task.new).is_active = true) →
      (ts.getD j Task.new).is_active = false →
      spawnList c ts = (ts.set j ((ts.getD j Task.new).init_with c), true) := by
  intro ts
  induction ts with
  | nil => intro j hj _ _; simp at hj
  | cons t ts ih =>
    intro j hj hprev hj0
    cases j with
    | zero =>
      have ht : t.is_active = false := by simpa using hj0
      simp [spawnList, ht]
    | succ j =>
      have ht : t.is_active = true := by simpa using hprev 0 (Nat.succ_pos j)
      have h1 : ∀ k, k < j → (ts.getD k Task.new).is_active = true := by
        intro k hk
        simpa using hprev (k + 1) (by omega)
      have h2 : (ts.getD j Task.new).is_active = false := by simpa using hj0
      have hlen : j < ts.length := by simpa using hj
      simp [spawnList, ht, ih j hlen h1 h2]

/-- Claim C3: a `spawn` onto a table whose slots are all occupied
returns `false` and leaves the whole executor — every slot's buffer,
bindings and occupancy, and the cursor — unchanged. -/
theorem spawn_full_table_rejects (ex : Executor) (c : Computation)
    (h : ∀ t ∈ ex.tasks, t.is_active = true) :
    ex.spawn c = (ex, false) := by
  simp [Executor.spawn, spawnList_all_active c ex.tasks h]

theorem spawn_full_table_rejects_witness :
    fullEx.spawn smallComp = (fullEx, false) :=
  spawn_full_table_rejects fullEx smallComp (by decide)

/-- Claim C7: when slot `j` is the lowest-index empty slot and the
computation fits the slot capacity, `spawn` installs it into slot `j`
(which becomes occupied), returns `true`, and leaves every other slot
unchanged. -/
theorem spawn_installs_first_empty (ex : Executor) (c : Computation) (j : Nat)
    (hj : j < ex.tasks.length)
    (hprev : ∀ k, k < j → (ex.tasks.getD k Task.new).is_active = true)
    (hempty : (ex.tasks.getD j Task.new).is_active = false)
    (hsize : c.size ≤ (ex.tasks.getD j Task.new).storage.length) :
    ex.spawn c
      = ({ ex with tasks :=
            ex.tasks.set j ((ex.tasks.getD j Task.new).init_with c) }, true)
    ∧ ((ex.tasks.getD j Task.new).init_with c).is_active = true := by
  constructor
  · simp [Executor.spawn, spawnList_first_inactive c ex.tasks j hj hprev hempty]
  · unfold Task.init_with
    rw [if_pos hsize]
    simp [Task.is_active]

set_option maxRecDepth 4096 in
theorem spawn_installs_first_empty_witness :
    ex7.spawn smallComp
      = ({ ex7 with tasks :=
            ex7.tasks.set 1 ((ex7.tasks.getD 1 Task.new).init_with smallComp) }, true)
    ∧ ((ex7.tasks.getD 1 Task.new).init_with smallComp).is_active = true :=
  spawn_installs_first_empty ex7 smallComp 1 (by decide) (by decide)
    (by decide) (by decide)

/-- `getD` after `set` at the same (in-range) index yields the value
just stored. -/
theorem getD_set_self {α : Type} :
    ∀ (l : List α) (n : Nat) (a d : α), n < l.length →
      (l.set n a).getD n d = a := by
  intro l
  induction l with
  | nil => intro n a d h; simp at h
  | cons x xs ih =>
    intro n a d h
    cases n with
    | zero => rfl
    | succ n => exact ih n a d (by simpa using h)

/-- An in-range `getD` is a member of the list. -/
theorem getD_mem {α : Type} :
    ∀ (l : List α) (n : Nat) (d : α), n < l.length → l.getD n d ∈ l := by
  intro l
  induction l with
  | nil => intro n d h; simp at h
  | cons x xs ih =>
    intro n d h
    cases n with
    | zero => simp [List.getD]
    | succ n =>
      have hm := ih n d (by simpa using h)
      simpa [List.getD] using Or.inr hm

/-- With the cursor in range, `run_step` steps the slot under the
cursor and advances the cursor by one modulo the table size. -/
theorem run_step_eq (ex : Executor) (h : ex.current_task < ex.tasks.length) :
    ex.run_step = some
      { tasks := ex.tasks.set ex.current_task
          (stepTask (ex.tasks.get ⟨ex.current_task, h⟩)),
        current_task := (ex.current_task + 1) % ex.tasks.length } := by
  have hne : ex.tasks.isEmpty = false := by
    cases hts : ex.tasks with
    | nil => rw [hts] at h; simp at h
    | cons a l => simp [hts]
  unfold Executor.run_step
  rw [hne, List.get?_eq_get h]
  simp

/-- Existence form of `run_step_eq`: the cursor advances by one modulo
the table size and the table size is preserved. -/
theorem run_step_of_valid (ex : Executor) (h : ex.current_task < ex.tasks.length) :
    ∃ ex', ex.run_step = some ex' ∧
      ex'.tasks.length = ex.tasks.length ∧
      ex'.current_task = (ex.current_task + 1) % ex.tasks.length :=
  ⟨_, run_step_eq ex h, by simp, rfl⟩

/-- After `k` consecutive steps from a state with an in-range cursor,
the run has not failed, the table size is unchanged, and the cursor has
advanced by `k` modulo the table size. -/
theorem run_stepN_cursor :
    ∀ (k : Nat) (ex : Executor), ex.current_task < ex.tasks.length →
      ∃ exk, ex.run_stepN k = some exk ∧
        exk.tasks.length = ex.tasks.length ∧
        exk.current_task = (ex.current_task + k) % ex.tasks.length := by
  intro k
  induction k with
  | zero =>
    intro ex h
    exact ⟨ex, rfl, rfl, by simp [Nat.mod_eq_of_lt h]⟩
  | succ k ih =>
    intro ex h
    obtain ⟨ex1, hs, hlen1, hc1⟩ := run_step_of_valid ex h
    have h1 : ex1.current_task < ex1.tasks.length := by
      rw [hc1, hlen1]
      exact Nat.mod_lt _ (by omega)
    obtain ⟨exk, hsk, hlenk, hck⟩ := ih ex1 h1
    refine ⟨exk, ?_, by omega, ?_⟩
    · show ex.run_stepN (k + 1) = some exk
      unfold Executor.run_stepN
      rw [hs]
      exact hsk
    · rw [hck, hc1, hlen1, Nat.mod_add_mod]
      congr 1
      omega

/-- Claim C4: from any state with an in-range cursor, every `step`
advances the cursor by exactly one modulo the table size `N`
(independent of slot occupancy), after exactly `N` steps the cursor is
back at its starting index, and over those `N` steps every slot index
is the cursor position exactly once. -/
theorem run_step_cursor_round_robin (ex : Executor)
    (h : ex.current_task < ex.tasks.length) :
    (∀ k, ∃ exk, ex.run_stepN k = some exk ∧
        exk.tasks.length = ex.tasks.length ∧
        exk.current_task = (ex.current_task + k) % ex.tasks.length) ∧
    (∃ exN, ex.run_stepN ex.tasks.length = some exN ∧
        exN.current_task = ex.current_task) ∧
    (∀ j, j < ex.tasks.length →
        ∃! k, k < ex.tasks.length ∧
          (ex.current_task + k) % ex.tasks.length = j) := by
  refine ⟨fun k => run_stepN_cursor k ex h, ?_, ?_⟩
  · obtain ⟨exN, hN, _, hcN⟩ := run_stepN_cursor ex.tasks.length ex h
    refine ⟨exN, hN, ?_⟩
    rw [hcN, Nat.add_mod_right]
    exact Nat.mod_eq_of_lt h
  · intro j hj
    have hinj : ∀ k1 k2, k1 < ex.tasks.length → k2 < ex.tasks.length →
        (ex.current_task + k1) % ex.tasks.length
          = (ex.current_task + k2) % ex.tasks.length → k1 = k2 := by
      intro k1 k2 hk1 hk2 he
      have hmod : k1 % ex.tasks.length = k2 % ex.tasks.length :=
        Nat.ModEq.add_left_cancel' ex.current_task he
      rwa [Nat.mod_eq_of_lt hk1, Nat.mod_eq_of_lt hk2] at hmod
    have hcand : (ex.current_task
        + (ex.tasks.length + j - ex.current_task) % ex.tasks.length)
          % ex.tasks.length = j := by
      rw [Nat.add_mod_mod]
      have hc : ex.current_task + (ex.tasks.length + j - ex.current_task)
          = j + ex.tasks.length := by omega
      rw [hc, Nat.add_mod_right]
      exact Nat.mod_eq_of_lt hj
    refine ⟨(ex.tasks.length + j - ex.current_task) % ex.tasks.length,
      ⟨Nat.mod_lt _ (by omega), hcand⟩, ?_⟩
    rintro k' ⟨hk', hkj⟩
    exact hinj k' _ hk' (Nat.mod_lt _ (by omega)) (by rw [hkj, hcand])

theorem run_step_cursor_round_robin_witness :
    (∀ k, ∃ exk, Executor.new.run_stepN k = some exk ∧
        exk.tasks.length = Executor.new.tasks.length ∧
        exk.current_task
          = (Executor.new.current_task + k) % Executor.new.tasks.length) ∧
    (∃ exN, Executor.new.run_stepN Executor.new.tasks.length = some exN ∧
        exN.current_task = Executor.new.current_task) ∧
    (∀ j, j < Executor.new.tasks.length →
        ∃! k, k < Executor.new.tasks.length ∧
          (Executor.new.current_task + k) % Executor.new.tasks.length = j) :=
  run_step_cursor_round_robin Executor.new (by decide)

/-- A table holding an inactive slot accepts a spawn. -/
theorem spawnList_snd_true (c : Computation) :
    ∀ ts : List Task, (∃ t ∈ ts, t.is_active = false) →
      (spawnList c ts).2 = true := by
  intro ts
  induction ts with
  | nil => rintro ⟨t, ht, _⟩; simp at ht
  | cons t ts ih =>
    rintro ⟨t0, ht0, hact⟩
    by_cases hta : t.is_active = true
    · have hmem : t0 ∈ ts := by
        rcases List.mem_cons.mp ht0 with rfl | h2
        · rw [hta] at hact; simp at hact
        · exact h2
      simp [spawnList, hta, ih ⟨t0, hmem, hact⟩]
    · simp [spawnList, hta]

/-- Claim C5: when the slot under the cursor is occupied and its next
poll reports `Ready`, the same `step` call deactivates it: right after
the call that slot is no longer occupied, and a subsequent `spawn`
succeeds. -/
theorem run_step_done_slot_released (ex : Executor) (c : Computation)
    (h : ex.current_task < ex.tasks.length)
    (hact : (ex.tasks.get ⟨ex.current_task, h⟩).is_active = true)
    (hdone : ((ex.tasks.get ⟨ex.current_task, h⟩).poll).2 = Poll.ready) :
    ∃ ex', ex.run_step = some ex' ∧
      (ex'.tasks.getD ex.current_task Task.new).is_active = false ∧
      (ex'.spawn c).2 = true := by
  have hstep : stepTask (ex.tasks.get ⟨ex.current_task, h⟩)
      = (((ex.tasks.get ⟨ex.current_task, h⟩).poll).1).deactivate := by
    unfold stepTask
    rw [if_pos hact, hdone]
  have hgetD : ((ex.tasks.set ex.current_task
        (stepTask (ex.tasks.get ⟨ex.current_task, h⟩))).getD
          ex.current_task Task.new)
      = stepTask (ex.tasks.get ⟨ex.current_task, h⟩) :=
    getD_set_self _ _ _ _ h
  refine ⟨_, run_step_eq ex h, ?_, ?_⟩
  · rw [hgetD, hstep]
    exact deactivate_not_active _
  · show (spawnList c (ex.tasks.set ex.current_task
        (stepTask (ex.tasks.get ⟨ex.current_task, h⟩)))).2 = true
    apply spawnList_snd_true
    refine ⟨_, getD_mem _ ex.current_task Task.new (by simpa using h), ?_⟩
    rw [hgetD, hstep]
    exact deactivate_not_active _

theorem run_step_done_slot_released_witness :
    ∃ ex', ex5.run_step = some ex' ∧
      (ex'.tasks.getD ex5.current_task Task.new).is_active = false ∧
      (ex'.spawn smallComp).2 = true :=
  run_step_done_slot_released ex5 smallComp (by decide) (by decide) (by decide)

/-- Bytes at offsets other than the ones the character loop writes to
are untouched. -/
theorem write_at_aux_untouched (color : Nat) :
    ∀ (bytes : List Nat) (i offset : Nat) (buf : VgaBuffer) (off : Nat),
      (∀ j, j < bytes.length →
          off ≠ offset + (i + j) * 2 ∧ off ≠ offset + (i + j) * 2 + 1) →
      write_at_aux color bytes i offset buf off = buf off := by
  intro bytes
  induction bytes with
  | nil => intro i offset buf off _; rfl
  | cons b rest ih =>
    intro i offset buf off h
    have h0 := h 0 (by simp)
    simp only [Nat.add_zero] at h0
    have hrest : ∀ j, j < rest.length →
        off ≠ offset + (i + 1 + j) * 2 ∧ off ≠ offset + (i + 1 + j) * 2 + 1 := by
      intro j hj
      have e : i + 1 + j = i + (j + 1) := by omega
      rw [e]
      exact h (j + 1) (by simp only [List.length_cons]; omega)
    simp only [write_at_aux]
    rw [ih (i + 1) offset _ off hrest]
    by_cases hb : offset + i * 2 < 80 * 25 * 2
    · simp only [if_pos hb, updByte, if_neg h0.2, if_neg h0.1]
    · simp only [if_neg hb]

/-- For an even starting offset, the character loop never writes at or
beyond the end of the `80*25*2`-byte buffer. -/
theorem write_at_aux_past_end (color : Nat) :
    ∀ (bytes : List Nat) (i offset : Nat) (buf : VgaBuffer) (off : Nat),
      offset % 2 = 0 → 80 * 25 * 2 ≤ off →
      write_at_aux color bytes i offset buf off = buf off := by
  intro bytes
  induction bytes with
  | nil => intro i offset buf off _ _; rfl
  | cons b rest ih =>
    intro i offset buf off he hoff
    simp only [write_at_aux]
    rw [ih (i + 1) offset _ off he hoff]
    by_cases hb : offset + i * 2 < 80 * 25 * 2
    · have h1 : off ≠ offset + i * 2 := by omega
      have h2 : off ≠ offset + i * 2 + 1 := by omega
      simp only [if_pos hb, updByte, if_neg h2, if_neg h1]
    · simp only [if_neg hb]

/-- Claim C9 counterexample: `write_at` addressed at the out-of-bounds
position (row 0, col 80) still writes: byte offset 160 — the character
cell of the in-grid position (row 1, col 0) — changes from 0 to 88. -/
theorem write_at_out_of_bounds_writes :
    write_at [88] 0 80 7 (fun _ => 0) 160 = 88 ∧
    (fun _ => 0 : VgaBuffer) 160 = 0 := by
  constructor <;> rfl

/-- Claim C9 (amended): `write_char_at` ignores out-of-bounds
coordinates entirely and touches only the addressed cell's two bytes;
`write_at` suppresses exactly the bytes whose linear offset reaches the
end of the `80*25*2`-byte buffer — it never writes at or past the
buffer end, and it only writes the byte pairs at linear offsets
`(row*80 + col + j)*2` for character indices `j`, so an out-of-range
`(row, col)` wraps into later rows instead of being ignored. -/
theorem write_bounds_amended :
    (∀ ch row col color buf, ¬(row < 25 ∧ col < 80) →
        write_char_at ch row col color buf = buf) ∧
    (∀ ch row col color buf off, row < 25 → col < 80 →
        off ≠ (row * 80 + col) * 2 → off ≠ (row * 80 + col) * 2 + 1 →
        write_char_at ch row col color buf off = buf off) ∧
    (∀ text row col color buf off, 80 * 25 * 2 ≤ off →
        write_at text row col color buf off = buf off) ∧
    (∀ text row col color buf off,
        (∀ j, j < text.length →
            off ≠ (row * 80 + col + j) * 2 ∧ off ≠ (row * 80 + col + j) * 2 + 1) →
        write_at text row col color buf off = buf off) := by
  refine ⟨?_, ?_, ?_, ?_⟩
  · intro ch row col color buf hoob
    simp [write_char_at, hoob]
  · intro ch row col color buf off h1 h2 h3 h4
    simp [write_char_at, h1, h2, updByte, h3, h4]
  · intro text row col color buf off hoff
    exact write_at_aux_past_end color text 0 _ buf off (by omega) hoff
  · intro text row col color buf off h
    apply write_at_aux_untouched
    intro j hj
    have hji := h j hj
    constructor
    · intro hc; exact hji.1 (by omega)
    · intro hc; exact hji.2 (by omega)

theorem write_bounds_amended_witness :
    write_char_at 65 25 0 7 (fun _ => 0) = (fun _ => 0 : VgaBuffer) ∧
    write_at [88] 0 80 7 (fun _ => 0) 4000 = 0 :=
  ⟨write_bounds_amended.1 65 25 0 7 (fun _ => 0) (by decide),
   write_bounds_amended.2.2.1 [88] 0 80 7 (fun _ => 0) 4000 (by decide)⟩

end Swag
